import Mathlib

/-!
Verification of the simulation-based combinational equivalence checker
(`include/mockturtle/algorithms/simulation_cec.hpp`).

The file embeds the checker shallowly: the truth-table collaborator
(kitty), the miter collaborator and the generic simulation engine are
external to the covered core and are modelled from the specification;
the split-variable calculator, the round simulator, the driver loop and
the entry point are translated from the source.  All machine integers of
the source are `uint32_t`; they are embedded as `Nat` with explicit
`% 2 ^ 32` exactly where the source's arithmetic can wrap.
-/

namespace mockturtle

/-- Modelled from the spec: the external truth-table collaborator
(`kitty::dynamic_truth_table`, spec sections 3 and 6): a fixed-width Boolean
function over `num_vars` variables, stored as the list of its `2 ^ num_vars`
output bits; entry `k` of `bits` is the value of the function on the input
assignment whose variable `i` receives bit `i` of `k`. -/
structure dynamic_truth_table where
  num_vars : Nat
  bits : List Bool
deriving DecidableEq

/-- Modelled from the spec: the constructor `dynamic_truth_table tt(w)` builds
the all-zero table of width `w`. -/
def dtt_new (w : Nat) : dynamic_truth_table :=
  { num_vars := w, bits := List.replicate (2 ^ w) false }

/-- Modelled from the spec: bitwise complement `~tt` of a truth table. -/
def dtt_not (t : dynamic_truth_table) : dynamic_truth_table :=
  { num_vars := t.num_vars, bits := t.bits.map (fun b => !b) }

/-- Modelled from the spec: `kitty::create_nth_var`, the single-variable
indicator construction: the function of width `w` that is true exactly when
bit `index` of the input assignment is 1. -/
def create_nth_var (w index : Nat) : dynamic_truth_table :=
  { num_vars := w, bits := (List.range (2 ^ w)).map (fun k => k.testBit index) }

/-- Modelled from the spec: `kitty::is_const0`, the all-zero test. -/
def is_const0 (t : dynamic_truth_table) : Bool :=
  t.bits.all (fun b => !b)

/-- Statistics record (`simulation_cec_stats`, source lines 47-54); both
fields are `uint32_t`, default-initialized to zero. -/
structure simulation_cec_stats where
  split_var : Nat := 0
  rounds : Nat := 0
deriving DecidableEq

/-- The round simulator (`detail::tt_simulator`, source lines 58-97),
constructed from the split width and the round index. -/
structure tt_simulator where
  _split_var : Nat
  _round : Nat

/-- `tt_simulator::compute_constant` (source lines 64-68): `value ? ~tt : tt`
on a fresh all-zero table of width `_split_var`. -/
def tt_simulator.compute_constant (s : tt_simulator) (value : Bool) : dynamic_truth_table :=
  if value then dtt_not (dtt_new s._split_var) else dtt_new s._split_var

/-- `tt_simulator::compute_pi` (source lines 70-87): below the split width the
canonical variable table; above it, a constant table chosen from bit
`index - _split_var` of the round counter (`val == 0` complements the
all-zero table). -/
def tt_simulator.compute_pi (s : tt_simulator) (index : Nat) : dynamic_truth_table :=
  if index < s._split_var then
    create_nth_var s._split_var index
  else if (s._round >>> (index - s._split_var)) &&& 1 = 0 then
    dtt_not (dtt_new s._split_var)
  else
    dtt_new s._split_var

/-- `tt_simulator::compute_not` (source lines 89-92). -/
def tt_simulator.compute_not (_s : tt_simulator) (value : dynamic_truth_table) :
    dynamic_truth_table :=
  dtt_not value

/-- The loop of `simulation_cec_impl::calculate_split_var` (source lines
150-155): `while (m <= num_pis && (32 + (1 << (m - 3)) * num_nodes) <= (1 << 29)) m++;`
followed by `return m - 1`.  The guard's arithmetic is `uint32_t`
arithmetic, hence the explicit `% 2 ^ 32`; `fuel` bounds the recursion and is
chosen large enough that it never runs out before the guard fails. -/
def split_loop (num_pis num_nodes : Nat) : Nat → Nat → Nat
  | 0, m => m - 1
  | fuel + 1, m =>
    if m ≤ num_pis ∧ (32 + 2 ^ (m - 3) % 2 ^ 32 * num_nodes % 2 ^ 32) % 2 ^ 32 ≤ 2 ^ 29 then
      split_loop num_pis num_nodes fuel (m + 1)
    else
      m - 1

/-- `simulation_cec_impl::calculate_split_var` (source lines 142-157). -/
def calculate_split_var (num_pis num_nodes : Nat) : Nat :=
  if num_pis ≤ 6 then num_pis
  else split_loop num_pis num_nodes num_pis 7

/-- The exact-arithmetic reading of the loop guard's memory bound
`32 + (1 << (m - 3)) * num_nodes <= 2 ^ 29`, as the spec states it
(section 4.1). -/
def split_bound_exact (num_nodes m : Nat) : Prop :=
  32 + 2 ^ (m - 3) * num_nodes ≤ 2 ^ 29

instance (num_nodes m : Nat) : Decidable (split_bound_exact num_nodes m) := by
  unfold split_bound_exact
  infer_instance

/-- The exact-arithmetic version of `split_loop`, used to state what the
loop does when no `uint32_t` wraparound occurs. -/
def split_loop_exact (num_pis num_nodes : Nat) : Nat → Nat → Nat
  | 0, m => m - 1
  | fuel + 1, m =>
    if m ≤ num_pis ∧ split_bound_exact num_nodes m then
      split_loop_exact num_pis num_nodes fuel (m + 1)
    else
      m - 1

/-- The inner output scan of `simulation_cec_impl::run` (source lines
129-135): walk the primary-output tables of one round in order and stop at
the first one that is not constant zero.  Besides the verdict (`true` means
all inspected tables were zero and the driver may continue) it records, for
the early-exit claim, the list of `(round, output index)` pairs actually
inspected. -/
def scan_po : List dynamic_truth_table → Nat → Nat → Bool × List (Nat × Nat)
  | [], _, _ => (true, [])
  | t :: ts, r, j =>
    if is_const0 t then
      ((scan_po ts r (j + 1)).1, (r, j) :: (scan_po ts r (j + 1)).2)
    else
      (false, [(r, j)])

/-- The round loop of `simulation_cec_impl::run` (source lines 124-136):
for each round build a `tt_simulator`, simulate, and scan the outputs;
return `false` on the first non-zero output, `true` if every round is all
zero.  `outs r` abstracts the tables returned by the external generic
simulation engine in round `r`; `fuel` is the number of rounds still to run
and `r` the current round index.  The second and third components record the
rounds evaluated and the `(round, output)` pairs inspected. -/
def run_rounds (outs : Nat → List dynamic_truth_table) :
    Nat → Nat → Bool × List Nat × List (Nat × Nat)
  | 0, _ => (true, [], [])
  | fuel + 1, r =>
    let s := scan_po (outs r) r 0
    if s.1 then
      let rest := run_rounds outs fuel (r + 1)
      (rest.1, r :: rest.2.1, s.2 ++ rest.2.2)
    else
      (false, [r], s.2)

/-- Modelled from the spec: the combined (miter) logic network exactly as the
driver consumes it (spec section 6): its primary-input count (`num_pis()`),
its node count (`size()`), and the external generic simulation engine:
`sim split_var round` is the list of primary-output truth tables produced by
`simulate` with the simulator `tt_simulator(split_var, round)`, in output
order. -/
structure NetworkModel where
  num_pis : Nat
  size : Nat
  sim : Nat → Nat → List dynamic_truth_table

/-- `simulation_cec_impl::run` (source lines 115-138): compute the split
width, store the stats (`rounds` is `1 << (num_pis - split_var)` in
`uint32_t`, hence the `% 2 ^ 32`), and run the round loop. -/
def simulation_cec_impl.run (ntk : NetworkModel) : Bool × simulation_cec_stats :=
  let num_pis := ntk.num_pis
  let num_nodes := ntk.size
  let split_var := calculate_split_var num_pis num_nodes
  let rounds := 2 ^ (num_pis - split_var) % 2 ^ 32
  ((run_rounds (ntk.sim split_var) rounds 0).1, { split_var := split_var, rounds := rounds })

/-- `simulation_cec` (source lines 178-209).  `np1` is `ntk1.num_pis()`;
`ntk_miter` is the result of the external miter collaborator on the two
input networks (`none` when the construction fails); `pst` models the
optional stats pointer: `none` is a null pointer, `some prior` a supplied
record with its prior contents.  The result pairs the returned
`std::optional<bool>` with the contents of the caller's stats record after
the call. -/
def simulation_cec (np1 : Nat) (ntk_miter : Option NetworkModel)
    (pst : Option simulation_cec_stats) :
    Option Bool × Option simulation_cec_stats :=
  if np1 > 40 then (none, pst)
  else
    match ntk_miter with
    | some ntk =>
      let rs := simulation_cec_impl.run ntk
      (some rs.1, pst.map (fun _ => rs.2))
    | none => (some false, pst.map (fun _ => ({} : simulation_cec_stats)))

/-! ### Helper lemmas -/

/-- The test `(r >> k) & 1 == 0` of `compute_pi` is the complement of
`Nat.testBit`. -/
theorem shiftRight_and_one_eq_zero_iff (r k : Nat) :
    (r >>> k) &&& 1 = 0 ↔ r.testBit k = false := by
  rw [Nat.shiftRight_eq_div_pow, Nat.and_one_is_mod, Nat.testBit_to_div_mod]
  simp only [decide_eq_false_iff_not]
  omega

/-- Complementing the fresh all-zero table gives the all-one table. -/
theorem dtt_not_new (w : Nat) :
    dtt_not (dtt_new w) = { num_vars := w, bits := List.replicate (2 ^ w) true } := by
  simp [dtt_not, dtt_new, List.map_replicate]

/-! ### C4: the two branches of `compute_pi` -/

/-- C4.  For every `split_var`, `round_index` and `index`, `compute_pi`
returns the canonical single-variable indicator table for variable `index`
(width `split_var`) when `index < split_var`; and when `index ≥ split_var`,
letting `b` be bit `index - split_var` of the round index, it returns the
all-1 table of width `split_var` when `b = 0` and the all-0 table when
`b = 1`. -/
theorem compute_pi_cases (sv r i : Nat) :
    (i < sv → tt_simulator.compute_pi ⟨sv, r⟩ i = create_nth_var sv i) ∧
    (sv ≤ i → tt_simulator.compute_pi ⟨sv, r⟩ i =
      if r.testBit (i - sv) then
        { num_vars := sv, bits := List.replicate (2 ^ sv) false }
      else
        { num_vars := sv, bits := List.replicate (2 ^ sv) true }) := by
  constructor
  · intro h
    simp [tt_simulator.compute_pi, h]
  · intro h
    have h' : ¬i < sv := not_lt.2 h
    unfold tt_simulator.compute_pi
    rw [if_neg h']
    cases hb : r.testBit (i - sv)
    · have hz : (r >>> (i - sv)) &&& 1 = 0 := (shiftRight_and_one_eq_zero_iff r (i - sv)).2 hb
      rw [if_pos hz, dtt_not_new]
      simp
    · have hz : ¬(r >>> (i - sv)) &&& 1 = 0 := by
        intro hc
        rw [(shiftRight_and_one_eq_zero_iff r (i - sv)).1 hc] at hb
        exact Bool.false_ne_true hb
      rw [if_neg hz]
      simp [dtt_new]

theorem compute_pi_cases_witness :
    ((0 : Nat) < 2 ∧ tt_simulator.compute_pi ⟨2, 1⟩ 0 = create_nth_var 2 0) ∧
    ((2 : Nat) ≤ 3 ∧ tt_simulator.compute_pi ⟨2, 1⟩ 3 =
      if (1 : Nat).testBit (3 - 2) then
        { num_vars := 2, bits := List.replicate (2 ^ 2) false }
      else
        { num_vars := 2, bits := List.replicate (2 ^ 2) true }) :=
  ⟨⟨by decide, (compute_pi_cases 2 1 0).1 (by decide)⟩,
   ⟨by decide, (compute_pi_cases 2 1 3).2 (by decide)⟩⟩

/-! ### C10: all tables produced in one round have width `split_var` -/

/-- C10.  For every `split_var` and `round_index`, every truth table returned
by the round simulator — `compute_constant` for either boolean, `compute_pi`
for any index, and `compute_not` applied to a table of width `split_var` —
has exactly `split_var` variables, so all tables in one round share one
width. -/
theorem tt_simulator_width (sv r : Nat) (value : Bool) (index : Nat)
    (t : dynamic_truth_table) :
    (tt_simulator.compute_constant ⟨sv, r⟩ value).num_vars = sv ∧
    (tt_simulator.compute_pi ⟨sv, r⟩ index).num_vars = sv ∧
    (t.num_vars = sv → (tt_simulator.compute_not ⟨sv, r⟩ t).num_vars = sv) := by
  refine ⟨?_, ?_, ?_⟩
  · cases value <;> simp [tt_simulator.compute_constant, dtt_not, dtt_new]
  · unfold tt_simulator.compute_pi
    by_cases h : index < sv
    · rw [if_pos h]
      simp [create_nth_var]
    · rw [if_neg h]
      by_cases hz : (r >>> (index - sv)) &&& 1 = 0
      · rw [if_pos hz]
        simp [dtt_not, dtt_new]
      · rw [if_neg hz]
        simp [dtt_new]
  · intro h
    simp [tt_simulator.compute_not, dtt_not, h]

theorem tt_simulator_width_witness :
    (dtt_new 3).num_vars = 3 ∧
    (tt_simulator.compute_not ⟨3, 0⟩ (dtt_new 3)).num_vars = 3 :=
  ⟨by decide, (tt_simulator_width 3 0 true 5 (dtt_new 3)).2.2 (by decide)⟩

/-! ### C7: the 40-input cap -/

/-- C7.  For every pair of networks in which `ntk1` has more than 40 primary
inputs, `simulation_cec` returns indeterminate (`none`), independent of the
content of either network (the miter argument is arbitrary) and before any
simulation runs (the caller's stats record is left untouched). -/
theorem simulation_cec_cap (np1 : Nat) (m : Option NetworkModel)
    (pst : Option simulation_cec_stats) (h : np1 > 40) :
    simulation_cec np1 m pst = (none, pst) := by
  simp [simulation_cec, h]

theorem simulation_cec_cap_witness :
    (41 : Nat) > 40 ∧ simulation_cec 41 none none = (none, none) :=
  ⟨by decide, simulation_cec_cap 41 none none (by decide)⟩

/-! ### C1: behaviour when the miter construction fails -/

/-- C1, counterexample.  With `ntk1.num_pis() = 2 ≤ 40` and a failed miter
construction, `simulation_cec` does not return indeterminate: `result` is
initialized to `false`, the `if (ntk_miter.has_value())` block is skipped,
and `return result` yields `some false`. -/
theorem simulation_cec_miter_fail_counterexample :
    (simulation_cec 2 none none).1 = some false ∧
    (simulation_cec 2 none none).1 ≠ none := by
  constructor
  · rfl
  · intro h
    simp [simulation_cec] at h

/-- C1, amended.  For every pair of input networks such that `ntk1` has at
most 40 primary inputs and the miter construction fails, `simulation_cec`
returns the determinate value `false` (not indeterminate). -/
theorem simulation_cec_miter_fail_returns_false (np1 : Nat)
    (pst : Option simulation_cec_stats) (h : np1 ≤ 40) :
    (simulation_cec np1 none pst).1 = some false := by
  have h' : ¬np1 > 40 := not_lt.2 h
  simp [simulation_cec, h']

theorem simulation_cec_miter_fail_returns_false_witness :
    (3 : Nat) ≤ 40 ∧ (simulation_cec 3 none none).1 = some false :=
  ⟨by decide, simulation_cec_miter_fail_returns_false 3 none (by decide)⟩

/-! ### C9: the frame effect on the caller's stats record -/

/-- C9.  When a stats location is supplied and `ntk1` has more than 40
primary inputs, `simulation_cec` returns without writing to `*pst`, so the
record keeps its prior contents; whereas on the miter-failure path `*pst` is
written with the default-initialized record `{split_var = 0, rounds = 0}`. -/
theorem simulation_cec_pst_frame (np1 : Nat) (m : Option NetworkModel)
    (prior : simulation_cec_stats) :
    (np1 > 40 → (simulation_cec np1 m (some prior)).2 = some prior) ∧
    (np1 ≤ 40 → (simulation_cec np1 none (some prior)).2 =
      some { split_var := 0, rounds := 0 }) := by
  constructor
  · intro h
    simp [simulation_cec, h]
  · intro h
    have h' : ¬np1 > 40 := not_lt.2 h
    simp [simulation_cec, h']

theorem simulation_cec_pst_frame_witness :
    (simulation_cec 41 none (some ⟨3, 4⟩)).2 = some ⟨3, 4⟩ ∧
    (simulation_cec 40 none (some ⟨3, 4⟩)).2 = some { split_var := 0, rounds := 0 } :=
  ⟨(simulation_cec_pst_frame 41 none ⟨3, 4⟩).1 (by decide),
   (simulation_cec_pst_frame 40 none ⟨3, 4⟩).2 (by decide)⟩

/-! ### C8: determinism / purity across calls -/

/-- C8.  Two calls of `simulation_cec` with identical network inputs return
identical results and write identical stats, and no state persists across
calls: the returned value does not depend on the prior contents of the
caller's stats record (first conjunct), and a repeated call — run on the
stats state the first call left behind — returns the same result and leaves
the stats record unchanged (second and third conjuncts). -/
theorem simulation_cec_pure (np1 : Nat) (m : Option NetworkModel)
    (p q : simulation_cec_stats) :
    (simulation_cec np1 m (some q)).1 = (simulation_cec np1 m (some p)).1 ∧
    (simulation_cec np1 m ((simulation_cec np1 m (some p)).2)).1 =
      (simulation_cec np1 m (some p)).1 ∧
    (simulation_cec np1 m ((simulation_cec np1 m (some p)).2)).2 =
      (simulation_cec np1 m (some p)).2 := by
  by_cases h : np1 > 40
  · cases m <;> simp [simulation_cec, h]
  · cases m <;> simp [simulation_cec, h]

/-! ### Unfolding equations for the fuel-structured loops -/

theorem split_loop_zero (np nn m : Nat) : split_loop np nn 0 m = m - 1 := rfl

theorem split_loop_succ (np nn fuel m : Nat) :
    split_loop np nn (fuel + 1) m =
      if m ≤ np ∧ (32 + 2 ^ (m - 3) % 2 ^ 32 * nn % 2 ^ 32) % 2 ^ 32 ≤ 2 ^ 29 then
        split_loop np nn fuel (m + 1)
      else m - 1 := rfl

theorem split_loop_exact_zero (np nn m : Nat) : split_loop_exact np nn 0 m = m - 1 := rfl

theorem split_loop_exact_succ (np nn fuel m : Nat) :
    split_loop_exact np nn (fuel + 1) m =
      if m ≤ np ∧ split_bound_exact nn m then split_loop_exact np nn fuel (m + 1)
      else m - 1 := rfl

/-! ### C2: the stats relation `rounds = 2 ^ (num_pis - split_var)` -/

theorem split_loop_le (np nn : Nat) :
    ∀ fuel m, m ≤ np + 1 → split_loop np nn fuel m ≤ np := by
  intro fuel
  induction fuel with
  | zero =>
    intro m hm
    rw [split_loop_zero]
    omega
  | succ fuel ih =>
    intro m hm
    rw [split_loop_succ]
    by_cases hg : m ≤ np ∧ (32 + 2 ^ (m - 3) % 2 ^ 32 * nn % 2 ^ 32) % 2 ^ 32 ≤ 2 ^ 29
    · rw [if_pos hg]
      exact ih (m + 1) (by omega)
    · rw [if_neg hg]
      omega

theorem calculate_split_var_le (np nn : Nat) : calculate_split_var np nn ≤ np := by
  unfold calculate_split_var
  by_cases h : np ≤ 6
  · rw [if_pos h]
  · rw [if_neg h]
    exact split_loop_le np nn np 7 (by omega)

/-- C2, counterexample.  A 38-input miter with `2 ^ 26` nodes is driven with
`split_var = 6`, so the stored `rounds` is `1 << 32` in `uint32_t`, which
wraps to 0: the stats written through the supplied pointer are
`{split_var = 6, rounds = 0}`, and `0 ≠ 2 ^ (38 - 6)`. -/
theorem run_stats_wrap_counterexample :
    (simulation_cec 38 (some { num_pis := 38, size := 2 ^ 26, sim := fun _ _ => [] })
        (some {})).2 = some { split_var := 6, rounds := 0 } ∧
    (0 : Nat) ≠ 2 ^ (38 - 6) := by
  constructor
  · decide
  · decide

/-- C2, amended.  For every call on which the driver runs, the recorded stats
satisfy `rounds = 2 ^ (num_pis - split_var) % 2 ^ 32` (the `uint32_t` value
of `1 << (num_pis - split_var)`), `0 ≤ split_var ≤ num_pis`, and whenever
`num_pis - split_var < 32` — so the shifted value fits the 32-bit field —
the equation holds as exact integer arithmetic. -/
theorem run_stats_spec (ntk : NetworkModel) :
    (simulation_cec_impl.run ntk).2.split_var ≤ ntk.num_pis ∧
    (simulation_cec_impl.run ntk).2.rounds =
      2 ^ (ntk.num_pis - (simulation_cec_impl.run ntk).2.split_var) % 2 ^ 32 ∧
    (ntk.num_pis - (simulation_cec_impl.run ntk).2.split_var < 32 →
      (simulation_cec_impl.run ntk).2.rounds =
        2 ^ (ntk.num_pis - (simulation_cec_impl.run ntk).2.split_var)) := by
  refine ⟨calculate_split_var_le ntk.num_pis ntk.size, rfl, ?_⟩
  intro h
  have hlt : 2 ^ (ntk.num_pis - (simulation_cec_impl.run ntk).2.split_var) < 2 ^ 32 :=
    Nat.pow_lt_pow_right (by norm_num) h
  exact Nat.mod_eq_of_lt hlt

theorem run_stats_spec_witness :
    (3 : Nat) - (simulation_cec_impl.run
        { num_pis := 3, size := 5, sim := fun _ _ => [] }).2.split_var < 32 ∧
    (simulation_cec_impl.run { num_pis := 3, size := 5, sim := fun _ _ => [] }).2.rounds =
      2 ^ (3 - (simulation_cec_impl.run
        { num_pis := 3, size := 5, sim := fun _ _ => [] }).2.split_var) :=
  ⟨by decide,
   (run_stats_spec { num_pis := 3, size := 5, sim := fun _ _ => [] }).2.2 (by decide)⟩

/-! ### C5: the split-variable calculator -/

/-- When the exact value `32 + 2 ^ (m - 3) * nn` fits below `2 ^ 32`, the
`uint32_t` guard arithmetic of `split_loop` computes it exactly. -/
theorem guard_agree (nn m : Nat) (hsmall : 2 ^ (m - 3) * nn + 32 < 2 ^ 32) :
    (32 + 2 ^ (m - 3) % 2 ^ 32 * nn % 2 ^ 32) % 2 ^ 32 = 32 + 2 ^ (m - 3) * nn := by
  rcases Nat.eq_zero_or_pos nn with h0 | hpos
  · subst h0
    simp
  · have hp : 2 ^ (m - 3) ≤ 2 ^ (m - 3) * nn := Nat.le_mul_of_pos_right _ hpos
    have h1 : 2 ^ (m - 3) < 2 ^ 32 := by omega
    have h2 : 2 ^ (m - 3) * nn < 2 ^ 32 := by omega
    rw [Nat.mod_eq_of_lt h1, Nat.mod_eq_of_lt h2, Nat.mod_eq_of_lt (by omega)]

/-- As long as the running value of the memory bound has not wrapped, the
machine loop and its exact-arithmetic reading coincide; the bound staying
below `2 ^ 29` on every continued iteration keeps it that way. -/
theorem loops_agree (np nn : Nat) :
    ∀ fuel m, 7 ≤ m → 2 ^ (m - 3) * nn + 32 < 2 ^ 32 →
      split_loop np nn fuel m = split_loop_exact np nn fuel m := by
  intro fuel
  induction fuel with
  | zero =>
    intro m _ _
    rfl
  | succ fuel ih =>
    intro m h7 hsmall
    rw [split_loop_succ, split_loop_exact_succ]
    by_cases hg : m ≤ np ∧ split_bound_exact nn m
    · have hg' : m ≤ np ∧ (32 + 2 ^ (m - 3) % 2 ^ 32 * nn % 2 ^ 32) % 2 ^ 32 ≤ 2 ^ 29 :=
        ⟨hg.1, by rw [guard_agree nn m hsmall]; exact hg.2⟩
      rw [if_pos hg', if_pos hg]
      have hstep : 2 ^ (m + 1 - 3) * nn + 32 < 2 ^ 32 := by
        have hm3 : m + 1 - 3 = m - 3 + 1 := by omega
        have hb := hg.2
        unfold split_bound_exact at hb
        rw [hm3, pow_succ]
        have hc : 2 ^ (m - 3) * 2 * nn = 2 * (2 ^ (m - 3) * nn) := by ring
        rw [hc]
        omega
      exact ih (m + 1) (by omega) hstep
    · have hg' : ¬(m ≤ np ∧ (32 + 2 ^ (m - 3) % 2 ^ 32 * nn % 2 ^ 32) % 2 ^ 32 ≤ 2 ^ 29) := by
        intro hc
        exact hg ⟨hc.1, by
          unfold split_bound_exact
          rw [← guard_agree nn m hsmall]
          exact hc.2⟩
      rw [if_neg hg', if_neg hg]

/-- The exact loop run from `m` returns `f - 1`, where `f` is the first
position at or after `m` whose guard fails, provided the fuel reaches it. -/
theorem split_loop_exact_stops (np nn : Nat) :
    ∀ fuel m f, m ≤ f → f < m + fuel →
      ¬(f ≤ np ∧ split_bound_exact nn f) →
      (∀ j, m ≤ j → j < f → j ≤ np ∧ split_bound_exact nn j) →
      split_loop_exact np nn fuel m = f - 1 := by
  intro fuel
  induction fuel with
  | zero =>
    intro m f h1 h2 _ _
    exfalso
    omega
  | succ fuel ih =>
    intro m f h1 h2 hf hbet
    rw [split_loop_exact_succ]
    by_cases hmf : m = f
    · subst hmf
      rw [if_neg hf]
    · have hmf' : m < f := lt_of_le_of_ne h1 hmf
      have hg := hbet m (le_refl m) hmf'
      rw [if_pos hg]
      exact ih (m + 1) f (by omega) (by omega) hf (fun j hj1 hj2 => hbet j (by omega) hj2)

/-- The exact memory bound is antitone in `m`: once it fails it never holds
again. -/
theorem split_bound_exact_antitone (nn : Nat) {i j : Nat} (hij : i ≤ j)
    (hb : split_bound_exact nn j) : split_bound_exact nn i := by
  unfold split_bound_exact at hb ⊢
  have hpow : 2 ^ (i - 3) ≤ 2 ^ (j - 3) := Nat.pow_le_pow_right (by norm_num) (by omega)
  have := Nat.mul_le_mul_right nn hpow
  omega

/-- C5, counterexample.  At `num_pis = 12`, `num_nodes = 2 ^ 28 - 2`, the
`uint32_t` guard wraps at `m = 7` (`32 + 16 * num_nodes ≡ 0 mod 2 ^ 32`), so
the loop continues and the code returns 7, although no `m ≥ 7` satisfies the
exact bound — the claim's degenerate clause demands 6. -/
theorem calculate_split_var_wrap_counterexample :
    calculate_split_var 12 (2 ^ 28 - 2) = 7 ∧
    (∀ m, m < 13 → ¬(7 ≤ m ∧ split_bound_exact (2 ^ 28 - 2) m)) ∧
    (7 : Nat) ≠ 6 := by
  refine ⟨by decide, by decide, by decide⟩

/-- C5, amended.  For every `num_pis` and every `num_nodes < 2 ^ 28 - 2` (so
that the `uint32_t` arithmetic of the bound never wraps), the calculator
returns `num_pis` when `num_pis ≤ 6`; otherwise it returns the largest
`m ≥ 7` with `m ≤ num_pis` satisfying `32 + (1 << (m - 3)) * num_nodes ≤ 2 ^ 29`
(exact arithmetic), and when no such `m` exists the result degenerates
to 6. -/
theorem calculate_split_var_spec (np nn : Nat) (hnn : nn < 2 ^ 28 - 2) :
    (np ≤ 6 → calculate_split_var np nn = np) ∧
    (7 ≤ np →
      ((∃ m, 7 ≤ m ∧ m ≤ np ∧ split_bound_exact nn m) →
        7 ≤ calculate_split_var np nn ∧ calculate_split_var np nn ≤ np ∧
        split_bound_exact nn (calculate_split_var np nn) ∧
        ∀ m, calculate_split_var np nn < m → m ≤ np → ¬split_bound_exact nn m) ∧
      ((¬∃ m, 7 ≤ m ∧ m ≤ np ∧ split_bound_exact nn m) →
        calculate_split_var np nn = 6)) := by
  have h16 : (2 : Nat) ^ (7 - 3) = 16 := by norm_num
  have h28 : (2 : Nat) ^ 28 = 268435456 := by norm_num
  have h32 : (2 : Nat) ^ 32 = 4294967296 := by norm_num
  constructor
  · intro h
    unfold calculate_split_var
    rw [if_pos h]
  · intro hnp
    have hsmall7 : 2 ^ (7 - 3) * nn + 32 < 2 ^ 32 := by
      rw [h16]
      omega
    have hcalc : calculate_split_var np nn = split_loop_exact np nn np 7 := by
      unfold calculate_split_var
      rw [if_neg (by omega)]
      exact loops_agree np nn np 7 (le_refl 7) hsmall7
    constructor
    · rintro ⟨m0, hm7, hmle, hmB⟩
      set M := Nat.findGreatest (fun m => 7 ≤ m ∧ split_bound_exact nn m) np with hM
      have hMspec : 7 ≤ M ∧ split_bound_exact nn M :=
        Nat.findGreatest_spec (P := fun m => 7 ≤ m ∧ split_bound_exact nn m) hmle ⟨hm7, hmB⟩
      have hMle : M ≤ np := Nat.findGreatest_le np
      have hMgr : ∀ k, M < k → k ≤ np → ¬(7 ≤ k ∧ split_bound_exact nn k) :=
        fun k hk1 hk2 =>
          Nat.findGreatest_is_greatest (P := fun m => 7 ≤ m ∧ split_bound_exact nn m) hk1 hk2
      have hstop : split_loop_exact np nn np 7 = M + 1 - 1 := by
        apply split_loop_exact_stops np nn np 7 (M + 1) (by omega) (by omega)
        · intro hc
          exact hMgr (M + 1) (by omega) hc.1 ⟨by omega, hc.2⟩
        · intro j hj1 hj2
          exact ⟨by omega, split_bound_exact_antitone nn (by omega) hMspec.2⟩
      have hcm : calculate_split_var np nn = M := by
        rw [hcalc, hstop]
        omega
      refine ⟨by omega, by omega, by rw [hcm]; exact hMspec.2, ?_⟩
      intro m hm1 hm2 hmb
      exact hMgr m (by omega) hm2 ⟨by omega, hmb⟩
    · intro hne
      have hstop : split_loop_exact np nn np 7 = 7 - 1 := by
        apply split_loop_exact_stops np nn np 7 7 (le_refl 7) (by omega)
        · intro hc
          exact hne ⟨7, le_refl 7, hc.1, hc.2⟩
        · intro j hj1 hj2
          exfalso
          omega
      rw [hcalc, hstop]

theorem calculate_split_var_spec_witness :
    (5 : Nat) < 2 ^ 28 - 2 ∧
    (((10 : Nat) ≤ 6 → calculate_split_var 10 5 = 10) ∧
     ((7 : Nat) ≤ 10 →
       ((∃ m, 7 ≤ m ∧ m ≤ 10 ∧ split_bound_exact 5 m) →
         7 ≤ calculate_split_var 10 5 ∧ calculate_split_var 10 5 ≤ 10 ∧
         split_bound_exact 5 (calculate_split_var 10 5) ∧
         ∀ m, calculate_split_var 10 5 < m → m ≤ 10 → ¬split_bound_exact 5 m) ∧
       ((¬∃ m, 7 ≤ m ∧ m ≤ 10 ∧ split_bound_exact 5 m) →
         calculate_split_var 10 5 = 6))) :=
  ⟨by decide, calculate_split_var_spec 10 5 (by decide)⟩

/-! ### C3: early exit of the driver loop -/

theorem scan_po_nil (r j : Nat) : scan_po [] r j = (true, []) := rfl

theorem scan_po_cons (t : dynamic_truth_table) (ts : List dynamic_truth_table) (r j : Nat) :
    scan_po (t :: ts) r j =
      if is_const0 t then
        ((scan_po ts r (j + 1)).1, (r, j) :: (scan_po ts r (j + 1)).2)
      else
        (false, [(r, j)]) := rfl

theorem run_rounds_zero (outs : Nat → List dynamic_truth_table) (r : Nat) :
    run_rounds outs 0 r = (true, [], []) := rfl

theorem run_rounds_succ (outs : Nat → List dynamic_truth_table) (fuel r : Nat) :
    run_rounds outs (fuel + 1) r =
      if (scan_po (outs r) r 0).1 then
        ((run_rounds outs fuel (r + 1)).1,
         r :: (run_rounds outs fuel (r + 1)).2.1,
         (scan_po (outs r) r 0).2 ++ (run_rounds outs fuel (r + 1)).2.2)
      else
        (false, [r], (scan_po (outs r) r 0).2) := rfl

/-- A round whose output tables are all zero lets the scan continue, and
every pair it inspects belongs to that round. -/
theorem scan_po_all_zero (r : Nat) :
    ∀ (l : List dynamic_truth_table) (j : Nat),
      (∀ t ∈ l, is_const0 t = true) →
      (scan_po l r j).1 = true ∧ ∀ p ∈ (scan_po l r j).2, p.1 = r := by
  intro l
  induction l with
  | nil =>
    intro j _
    refine ⟨rfl, ?_⟩
    intro p hp
    simp [scan_po_nil] at hp
  | cons t ts ih =>
    intro j hall
    have ht : is_const0 t = true := hall t (List.mem_cons_self t ts)
    rw [scan_po_cons, if_pos ht]
    refine ⟨(ih (j + 1) (fun u hu => hall u (List.mem_cons_of_mem t hu))).1, ?_⟩
    intro p hp
    rcases List.mem_cons.1 hp with h1 | h2
    · rw [h1]
    · exact (ih (j + 1) (fun u hu => hall u (List.mem_cons_of_mem t hu))).2 p h2

/-- When position `k` holds the first non-zero table, the scan reports
failure and inspects only pairs of this round up to offset `k`. -/
theorem scan_po_first_nonzero (r : Nat) :
    ∀ (l : List dynamic_truth_table) (j k : Nat),
      k < l.length →
      (∀ i, i < k → is_const0 (l.getD i (dtt_new 0)) = true) →
      is_const0 (l.getD k (dtt_new 0)) = false →
      (scan_po l r j).1 = false ∧ ∀ p ∈ (scan_po l r j).2, p.1 = r ∧ p.2 ≤ j + k := by
  intro l
  induction l with
  | nil =>
    intro j k hk
    exact absurd hk (by simp)
  | cons t ts ih =>
    intro j k hk hzero hnz
    cases k with
    | zero =>
      have ht : is_const0 t = false := by simpa using hnz
      rw [scan_po_cons, if_neg (by rw [ht]; exact Bool.false_ne_true)]
      refine ⟨rfl, ?_⟩
      intro p hp
      rcases List.mem_singleton.1 hp with h1
      rw [h1]
      exact ⟨rfl, by omega⟩
    | succ k' =>
      have ht : is_const0 t = true := by simpa using hzero 0 (Nat.succ_pos k')
      rw [scan_po_cons, if_pos ht]
      have hrec := ih (j + 1) k' (by simpa using hk)
        (fun i hi => by simpa using hzero (i + 1) (by omega))
        (by simpa using hnz)
      refine ⟨hrec.1, ?_⟩
      intro p hp
      rcases List.mem_cons.1 hp with h1 | h2
      · rw [h1]
        exact ⟨rfl, by omega⟩
      · obtain ⟨ha, hb⟩ := hrec.2 p h2
        exact ⟨ha, by omega⟩

/-- The driver loop run from `rbase`: if the lexicographically first
non-zero output sits in round `r0` at output `j0`, the loop returns `false`,
evaluates no round beyond `r0`, and inspects no output of round `r0` beyond
`j0`. -/
theorem run_rounds_first_fail (outs : Nat → List dynamic_truth_table) :
    ∀ (fuel rbase r0 j0 : Nat),
      rbase ≤ r0 → r0 < rbase + fuel →
      (∀ r, rbase ≤ r → r < r0 → ∀ t ∈ outs r, is_const0 t = true) →
      j0 < (outs r0).length →
      (∀ i, i < j0 → is_const0 ((outs r0).getD i (dtt_new 0)) = true) →
      is_const0 ((outs r0).getD j0 (dtt_new 0)) = false →
      (run_rounds outs fuel rbase).1 = false ∧
      (∀ r ∈ (run_rounds outs fuel rbase).2.1, r ≤ r0) ∧
      (∀ p ∈ (run_rounds outs fuel rbase).2.2, p.1 < r0 ∨ (p.1 = r0 ∧ p.2 ≤ j0)) := by
  intro fuel
  induction fuel with
  | zero =>
    intro rbase r0 j0 h1 h2 _ _ _ _
    exfalso
    omega
  | succ fuel ih =>
    intro rbase r0 j0 h1 h2 hprev hj0 hzero hnz
    by_cases heq : rbase = r0
    · subst heq
      have hscan := scan_po_first_nonzero rbase (outs rbase) 0 j0 hj0 hzero hnz
      rw [run_rounds_succ, if_neg (by rw [hscan.1]; exact Bool.false_ne_true)]
      refine ⟨rfl, ?_, ?_⟩
      · intro r hr
        rcases List.mem_singleton.1 hr with h1'
        omega
      · intro p hp
        obtain ⟨hp1, hp2⟩ := hscan.2 p hp
        right
        exact ⟨hp1, by omega⟩
    · have hlt : rbase < r0 := lt_of_le_of_ne h1 heq
      have hall := hprev rbase (le_refl rbase) hlt
      have hscan := scan_po_all_zero rbase (outs rbase) 0 hall
      rw [run_rounds_succ, if_pos hscan.1]
      have hrec := ih (rbase + 1) r0 j0 (by omega) (by omega)
        (fun r hr1 hr2 => hprev r (by omega) hr2) hj0 hzero hnz
      refine ⟨hrec.1, ?_, ?_⟩
      · intro r hr
        rcases List.mem_cons.1 hr with h1' | h2'
        · omega
        · exact hrec.2.1 r h2'
      · intro p hp
        rcases List.mem_append.1 hp with h1' | h2'
        · left
          have := hscan.2 p h1'
          omega
        · exact hrec.2.2 p h2'

/-- C3.  For every execution of the driver loop in which some round produces
a primary-output truth table that is not identically zero — with `(r0, j0)`
the lexicographically first such position — the driver returns `false`, no
round after `r0` is evaluated, and no output of round `r0` after `j0` is
inspected. -/
theorem driver_early_exit (outs : Nat → List dynamic_truth_table) (rounds r0 j0 : Nat)
    (hr0 : r0 < rounds)
    (hprev : ∀ r, r < r0 → ∀ t ∈ outs r, is_const0 t = true)
    (hj0 : j0 < (outs r0).length)
    (hzero : ∀ i, i < j0 → is_const0 ((outs r0).getD i (dtt_new 0)) = true)
    (hnz : is_const0 ((outs r0).getD j0 (dtt_new 0)) = false) :
    (run_rounds outs rounds 0).1 = false ∧
    (∀ r ∈ (run_rounds outs rounds 0).2.1, r ≤ r0) ∧
    (∀ p ∈ (run_rounds outs rounds 0).2.2, p.1 < r0 ∨ (p.1 = r0 ∧ p.2 ≤ j0)) :=
  run_rounds_first_fail outs rounds 0 r0 j0 (Nat.zero_le r0) (by omega)
    (fun r _ hr => hprev r hr) hj0 hzero hnz

/-- A concrete simulation-engine trace with its first non-zero output in
round 1 at output index 1, used to witness the early-exit theorem. -/
def early_exit_example_outs : Nat → List dynamic_truth_table :=
  fun r =>
    if r = 1 then [dtt_new 1, dtt_not (dtt_new 1), dtt_new 1]
    else [dtt_new 1, dtt_new 1]

theorem driver_early_exit_witness :
    (run_rounds early_exit_example_outs 4 0).1 = false ∧
    (∀ r ∈ (run_rounds early_exit_example_outs 4 0).2.1, r ≤ 1) ∧
    (∀ p ∈ (run_rounds early_exit_example_outs 4 0).2.2,
      p.1 < 1 ∨ (p.1 = 1 ∧ p.2 ≤ 1)) :=
  driver_early_exit early_exit_example_outs 4 1 1 (by decide) (by decide) (by decide)
    (by decide) (by decide)

/-! ### C6: the split/round partition enumerates the input space exactly once -/

/-- The value `compute_pi` assigns to primary input `i` at position `p` of
the round-`r` truth tables: entry `p` of the table `compute_pi` returns for
index `i` with split width `sv`. -/
def pi_bit (sv r i p : Nat) : Bool :=
  (tt_simulator.compute_pi ⟨sv, r⟩ i).bits.getD p false

theorem getD_range_map (n p : Nat) (f : Nat → Bool) (h : p < n) :
    ((List.range n).map f).getD p false = f p := by
  simp [List.getD, List.getElem?_map, List.getElem?_range, h]

theorem getD_replicate_eq (n p : Nat) (b : Bool) (h : p < n) :
    (List.replicate n b).getD p false = b := by
  simp [List.getD, List.getElem?_replicate, h]

/-- Below the split width, `compute_pi` reads bit `i` of the table
position. -/
theorem pi_bit_lt (sv r i p : Nat) (hi : i < sv) (hp : p < 2 ^ sv) :
    pi_bit sv r i p = p.testBit i := by
  unfold pi_bit tt_simulator.compute_pi
  rw [if_pos hi]
  unfold create_nth_var
  exact getD_range_map (2 ^ sv) p (fun k => k.testBit i) hp

/-- At or above the split width, `compute_pi` assigns the complement of bit
`i - sv` of the round counter, uniformly in the table position. -/
theorem pi_bit_ge (sv r i p : Nat) (hi : ¬i < sv) (hp : p < 2 ^ sv) :
    pi_bit sv r i p = !r.testBit (i - sv) := by
  unfold pi_bit tt_simulator.compute_pi
  rw [if_neg hi]
  cases hb : r.testBit (i - sv)
  · have hz : (r >>> (i - sv)) &&& 1 = 0 := (shiftRight_and_one_eq_zero_iff r (i - sv)).2 hb
    rw [if_pos hz, dtt_not_new]
    simpa using getD_replicate_eq (2 ^ sv) p true hp
  · have hz : ¬(r >>> (i - sv)) &&& 1 = 0 := by
      intro hc
      rw [(shiftRight_and_one_eq_zero_iff r (i - sv)).1 hc] at hb
      exact Bool.false_ne_true hb
    rw [if_neg hz]
    unfold dtt_new
    simp only [Bool.not_true]
    exact getD_replicate_eq (2 ^ sv) p false hp

/-- The input assignment induced by `compute_pi` for round `q.1` and table
position `q.2`: primary input `i` receives entry `q.2` of the table
`compute_pi` returns for index `i`. -/
def round_assignment (np sv : Nat) (q : Fin (2 ^ (np - sv)) × Fin (2 ^ sv)) :
    Fin np → Bool :=
  fun i => pi_bit sv q.1.val i.val q.2.val

/-- C6.  For every `num_pis`, `num_nodes` and the `split_var` produced by
the calculator (with `rounds = 2 ^ (num_pis - split_var)` rounds), the map
taking (round index, table position) to the input assignment induced by
`compute_pi`'s values — split variables from the table position, non-split
variables from the round bits under the stated polarity — is a bijection
onto the assignments of all `num_pis` inputs: every input vector is covered
exactly once, with no omission and no duplication. -/
theorem round_enumeration_bijective (np nn sv : Nat)
    (hsv : sv = calculate_split_var np nn) :
    Function.Bijective (round_assignment np sv) := by
  have hle : sv ≤ np := by
    rw [hsv]
    exact calculate_split_var_le np nn
  rw [Fintype.bijective_iff_injective_and_card]
  constructor
  · intro q1 q2 h
    obtain ⟨r1, p1⟩ := q1
    obtain ⟨r2, p2⟩ := q2
    have hfun : ∀ i : Fin np, pi_bit sv r1.val i.val p1.val = pi_bit sv r2.val i.val p2.val :=
      fun i => congrFun h i
    have hp : p1.val = p2.val := by
      apply Nat.eq_of_testBit_eq
      intro j
      by_cases hj : j < sv
      · have hi : j < np := lt_of_lt_of_le hj hle
        have hx := hfun ⟨j, hi⟩
        rw [pi_bit_lt sv r1.val j p1.val hj p1.isLt,
            pi_bit_lt sv r2.val j p2.val hj p2.isLt] at hx
        exact hx
      · have h1 : p1.val.testBit j = false :=
          Nat.testBit_lt_two_pow
            (lt_of_lt_of_le p1.isLt (Nat.pow_le_pow_right (by norm_num) (by omega)))
        have h2 : p2.val.testBit j = false :=
          Nat.testBit_lt_two_pow
            (lt_of_lt_of_le p2.isLt (Nat.pow_le_pow_right (by norm_num) (by omega)))
        rw [h1, h2]
    have hr : r1.val = r2.val := by
      apply Nat.eq_of_testBit_eq
      intro j
      by_cases hj : j < np - sv
      · have hi : sv + j < np := by omega
        have hge : ¬sv + j < sv := by omega
        have hx := hfun ⟨sv + j, hi⟩
        rw [pi_bit_ge sv r1.val (sv + j) p1.val hge p1.isLt,
            pi_bit_ge sv r2.val (sv + j) p2.val hge p2.isLt] at hx
        have hsub : sv + j - sv = j := by omega
        rw [hsub] at hx
        exact Bool.not_inj hx
      · have h1 : r1.val.testBit j = false :=
          Nat.testBit_lt_two_pow
            (lt_of_lt_of_le r1.isLt (Nat.pow_le_pow_right (by norm_num) (by omega)))
        have h2 : r2.val.testBit j = false :=
          Nat.testBit_lt_two_pow
            (lt_of_lt_of_le r2.isLt (Nat.pow_le_pow_right (by norm_num) (by omega)))
        rw [h1, h2]
    simp only [Prod.mk.injEq]
    exact ⟨Fin.ext hr, Fin.ext hp⟩
  · rw [Fintype.card_prod, Fintype.card_fin, Fintype.card_fin, Fintype.card_fun,
        Fintype.card_fin, Fintype.card_bool, ← pow_add]
    congr 1
    omega

theorem round_enumeration_bijective_witness :
    (2 : Nat) = calculate_split_var 2 3 ∧ Function.Bijective (round_assignment 2 2) :=
  ⟨by decide, round_enumeration_bijective 2 3 2 (by decide)⟩

end mockturtle
